import Mathlib

/-!
Verification of the schema-resolution and type-mapping engine of the
`xtask` binding generator (`src/xtask/src/{resolver,openrpc,gen}.rs` and
`src/xtask/src/mapper/{mod,ts,python,go,rust}.rs`).

The Rust code is shallowly embedded: each Rust function becomes an
executable Lean definition with the same name (module paths become
namespaces).  Notes on the embedding:

* `schemars::schema::SchemaObject` is modelled with exactly the fields the
  program reads (`reference`, `subschemas`, `enum_values`, `instance_type`,
  `array`, `object`); the fields the program never touches (`metadata`,
  `format`, `const_value`, `number`, `string`, `extensions`) are omitted.
* `serde_json::Value` is modelled by `JsonValue`, which distinguishes
  string values from everything else, because the program only ever calls
  `Value::as_str` on it.
* `std::collections::HashMap` values are modelled by their iteration
  sequence, a list of key/value pairs; a `HashMap` promises only that this
  sequence is some permutation of the inserted entries, not that it matches
  insertion order.  Lookup (`get`) is modelled by `List.find?` on the key.
* Recursive Rust functions (`collect_fields` and the four `map_type`s) are
  embedded with an explicit fuel parameter that decreases at every
  recursive call; the value `none` means the fuel ran out, i.e. the Rust
  recursion has not completed within that depth.
* Rust `Result<T, anyhow::Error>` becomes `Except String T`, keeping the
  error message text of the source.
-/

/-- One of the seven JSON-Schema instance types (`schemars::schema::InstanceType`). -/
inductive InstanceType where
  | Null
  | Boolean
  | Object
  | Array
  | Number
  | String
  | Integer
deriving DecidableEq, Repr

/-- `schemars::schema::SingleOrVec`: either a single value or a list of values. -/
inductive SingleOrVec (α : Type) where
  | Single (a : α)
  | Vec (l : List α)
deriving DecidableEq, Repr

/-- `serde_json::Value`, modelled just finely enough for `Value::as_str`:
a string value, or any non-string JSON value. -/
inductive JsonValue where
  | str (s : String)
  | nonString
deriving DecidableEq, Repr

/-- `Value::as_str`: `some` exactly on string values. -/
def JsonValue.as_str : JsonValue → Option String
  | .str s => some s
  | .nonString => none

mutual

/-- `schemars::schema::Schema`: a boolean literal schema or a structured object. -/
inductive Schema where
  | bool (b : Bool)
  | obj (o : SchemaObject)

/-- `schemars::schema::SchemaObject`, restricted to the fields the program
reads.  Constructor argument order: `instance_type`, `enum_values`,
`subschemas`, `array`, `object`, `reference`. -/
inductive SchemaObject where
  | mk (instance_type : Option (SingleOrVec InstanceType))
       (enum_values : Option (List JsonValue))
       (subschemas : Option SubschemaValidation)
       (array : Option ArrayValidation)
       (object : Option ObjectValidation)
       (reference : Option String)

/-- `schemars::schema::SubschemaValidation`, restricted to the three
composition lists the program reads. -/
inductive SubschemaValidation where
  | mk (all_of : Option (List Schema))
       (any_of : Option (List Schema))
       (one_of : Option (List Schema))

/-- `schemars::schema::ArrayValidation`, restricted to `items`. -/
inductive ArrayValidation where
  | mk (items : Option (SingleOrVec Schema))

/-- Modelled from the spec: the iteration order of
`schemars::schema::ObjectValidation.properties` is decided by the
`preserve_order` Cargo feature, chosen in the repository's Cargo.toml,
which is not among the sources; following the spec ("insertion order is
semantically meaningful"), `properties` is modelled as the key/value
sequence in the declaration order of the input document.  The rest is
`ObjectValidation` restricted to the fields the program reads:
`properties`, `required` (the required-name set, queried only through
membership) and `additional_properties`. -/
inductive ObjectValidation where
  | mk (properties : List (String × Schema))
       (required : List String)
       (additional_properties : Option AdditionalProperties)

/-- `schemars::schema::AdditionalProperties` as the program matches it:
an explicit schema or a boolean. -/
inductive AdditionalProperties where
  | Schema (s : Schema)
  | Bool (b : Bool)

end

def SchemaObject.instance_type : SchemaObject → Option (SingleOrVec InstanceType)
  | .mk it _ _ _ _ _ => it

def SchemaObject.enum_values : SchemaObject → Option (List JsonValue)
  | .mk _ ev _ _ _ _ => ev

def SchemaObject.subschemas : SchemaObject → Option SubschemaValidation
  | .mk _ _ ss _ _ _ => ss

def SchemaObject.array : SchemaObject → Option ArrayValidation
  | .mk _ _ _ ar _ _ => ar

def SchemaObject.object : SchemaObject → Option ObjectValidation
  | .mk _ _ _ _ ob _ => ob

def SchemaObject.reference : SchemaObject → Option String
  | .mk _ _ _ _ _ r => r

def SubschemaValidation.all_of : SubschemaValidation → Option (List Schema)
  | .mk a _ _ => a

def SubschemaValidation.any_of : SubschemaValidation → Option (List Schema)
  | .mk _ a _ => a

def SubschemaValidation.one_of : SubschemaValidation → Option (List Schema)
  | .mk _ _ o => o

def ArrayValidation.items : ArrayValidation → Option (SingleOrVec Schema)
  | .mk i => i

def ObjectValidation.properties : ObjectValidation → List (String × Schema)
  | .mk p _ _ => p

def ObjectValidation.required : ObjectValidation → List String
  | .mk _ r _ => r

def ObjectValidation.additional_properties : ObjectValidation → Option AdditionalProperties
  | .mk _ _ a => a

/-- `SchemaObject::default()`: every field `None`. -/
def SchemaObject.default : SchemaObject := .mk none none none none none none

/-- `normalize_schema` (resolver.rs): a boolean literal becomes the default
(empty) schema object; a structured node passes through unchanged. -/
def normalize_schema : Schema → SchemaObject
  | .bool _ => SchemaObject.default
  | .obj o => o

/-- `ResolvedField` (resolver.rs). -/
structure ResolvedField where
  name : String
  schema : SchemaObject
  required : Bool

/-- `ResolvedType` (resolver.rs). -/
structure ResolvedType where
  name : String
  schema : SchemaObject
  fields : List ResolvedField

/-- `Info` (openrpc.rs). -/
structure Info where
  title : Option String
  version : Option String
  description : Option String

/-- `Method` (openrpc.rs). -/
structure Method where
  name : String

/-- `Components` (openrpc.rs).  `schemas` is a
`HashMap<String, Schema>`, modelled by its iteration sequence. -/
structure Components where
  schemas : Option (List (String × Schema))

/-- `OpenRpc` (openrpc.rs). -/
structure OpenRpc where
  openrpc : String
  info : Option Info
  methods : List Method
  components : Option Components

/-- The segments of a character list split at every `'/'`, in order; the
model of Rust's `str::split('/')`, which always yields at least one
(possibly empty) segment. -/
def split_parts : List Char → List (List Char)
  | [] => [[]]
  | c :: cs =>
    match split_parts cs with
    | [] => [[]]
    | p :: ps => if c = '/' then [] :: p :: ps else (c :: p) :: ps

/-- `ref_to_name` (resolver.rs): `reference.split('/').last()`, with the
`invalid reference string` error when the iterator is empty. -/
def ref_to_name (reference : String) : Except String String :=
  match (split_parts reference.data).getLast? with
  | some part => .ok (String.mk part)
  | none => .error "invalid reference string"

/-- `HashMap::get` on the components map, modelled as first-match lookup in
the iteration sequence (a real `HashMap` has no duplicate keys, so first
match and only match coincide). -/
def lookup_schema (components : List (String × Schema)) (name : String) : Option Schema :=
  (components.find? (fun p => p.1 == name)).map (fun p => p.2)

/-- The non-recursive tail of `collect_fields` (resolver.rs): the named
object-properties branch, else the empty field list. -/
def object_fields (s : SchemaObject) : List ResolvedField :=
  match s.object with
  | some object =>
      object.properties.map (fun p =>
        { name := p.1, schema := normalize_schema p.2,
          required := object.required.contains p.1 })
  | none => []

/-- Resolve a list of composed members with a given resolver and
concatenate their field lists in order, propagating fuel exhaustion and
the first error: the `allOf` loop shape of `collect_fields`. -/
def traverse_fields (f : Schema → Option (Except String (List ResolvedField))) :
    List Schema → Option (Except String (List ResolvedField))
  | [] => some (.ok [])
  | sub :: rest =>
    match f sub with
    | none => none
    | some (.error e) => some (.error e)
    | some (.ok fields) =>
      match traverse_fields f rest with
      | none => none
      | some (.error e) => some (.error e)
      | some (.ok more) => some (.ok (fields ++ more))

/-- `collect_fields` (resolver.rs), with fuel: follow a `$ref`, else
concatenate the `allOf` members' fields, else emit one field per declared
object property, else no fields.  `none` means the fuel ran out before the
recursion completed. -/
def collect_fields : Nat → SchemaObject → List (String × Schema) →
    Option (Except String (List ResolvedField))
  | 0, _, _ => none
  | fuel + 1, s, components =>
    match s.reference with
    | some reference =>
      match ref_to_name reference with
      | .error e => some (.error e)
      | .ok target_name =>
        match lookup_schema components target_name with
        | none => some (.error ("missing referenced schema " ++ target_name))
        | some target_schema =>
            collect_fields fuel (normalize_schema target_schema) components
    | none =>
      match s.subschemas with
      | some subschemas =>
        match subschemas.all_of with
        | some all_of =>
            traverse_fields
              (fun sub => collect_fields fuel (normalize_schema sub) components) all_of
        | none => some (.ok (object_fields s))
      | none => some (.ok (object_fields s))

/-- The loop body of `resolve_components` (resolver.rs): one `ResolvedType`
per (name, schema) pair, in the order of the iteration sequence. -/
def resolve_each (fuel : Nat) (components : List (String × Schema)) :
    List (String × Schema) → Option (Except String (List ResolvedType))
  | [] => some (.ok [])
  | (name, schema) :: rest =>
    let schema_obj := normalize_schema schema
    match collect_fields fuel schema_obj components with
    | none => none
    | some (.error e) => some (.error e)
    | some (.ok fields) =>
      match resolve_each fuel components rest with
      | none => none
      | some (.error e) => some (.error e)
      | some (.ok tail) =>
          some (.ok ({ name := name, schema := schema_obj, fields := fields } :: tail))

/-- `resolve_components` (resolver.rs): fail when `components.schemas` is
absent, else build one catalog entry per pair of the iteration sequence. -/
def resolve_components (fuel : Nat) (spec : OpenRpc) :
    Option (Except String (List ResolvedType)) :=
  match spec.components.bind Components.schemas with
  | none => some (.error "no components.schemas present in OpenRPC spec")
  | some components => resolve_each fuel components components

/-- `array_item_schema` (resolver.rs). -/
def array_item_schema (array : ArrayValidation) : Option SchemaObject :=
  match array.items with
  | some (.Single schema) => some (normalize_schema schema)
  | some (.Vec list) => list.head?.map normalize_schema
  | none => none

/-- `object_additional_properties` (resolver.rs). -/
def object_additional_properties (object : ObjectValidation) : Option SchemaObject :=
  match object.additional_properties with
  | some (.Schema schema) => some (normalize_schema schema)
  | some (.Bool true) =>
      some (SchemaObject.mk (some (.Vec [.Object])) none none none none none)
  | _ => none

/-- `one_of` (resolver.rs). -/
def one_of (subschemas : SubschemaValidation) : Option (List SchemaObject) :=
  subschemas.one_of.map (fun schemas => schemas.map normalize_schema)

/-- `any_of` (resolver.rs). -/
def any_of (subschemas : SubschemaValidation) : Option (List SchemaObject) :=
  subschemas.any_of.map (fun schemas => schemas.map normalize_schema)

/-- One step of `sanitize_identifier`'s scan (mapper/mod.rs): the
accumulator is the output built so far and the capitalize-next flag. -/
def sanitize_step (acc : String × Bool) (ch : Char) : String × Bool :=
  if ch.isAlphanum then
    if acc.2 then (acc.1.push ch.toUpper, false) else (acc.1.push ch, false)
  else (acc.1, true)

/-- `sanitize_identifier` (mapper/mod.rs): keep ASCII alphanumerics,
capitalizing each one that follows a dropped separator (the source calls
`char::to_uppercase`, which on the ASCII alphanumerics kept here is plain
ASCII uppercasing), and substitute `"Type"` when nothing is kept. -/
def sanitize_identifier (name : String) : String :=
  let r := name.data.foldl sanitize_step ("", true)
  if r.1 = "" then "Type" else r.1

/-- `LanguageContext` (mapper/mod.rs); the `HashMap` of type names is
modelled by its entry sequence. -/
structure LanguageContext where
  type_names : List (String × String)
  language : String

/-- `LanguageContext::type_name`: table lookup, falling back to
`sanitize_identifier` of the raw name. -/
def LanguageContext.type_name (ctx : LanguageContext) (raw : String) : String :=
  match ctx.type_names.find? (fun p => p.1 == raw) with
  | some p => p.2
  | none => sanitize_identifier raw

/-- `LanguageContext::wrap_optional`: the per-language optional idiom. -/
def LanguageContext.wrap_optional (ctx : LanguageContext) (ty : String) : String :=
  match ctx.language with
  | "ts" | "typescript" => ty ++ " | null"
  | "python" => "Optional[" ++ ty ++ "]"
  | "go" => "*" ++ ty
  | "rust" => "Option<" ++ ty ++ ">"
  | _ => ty

/-- `map_reference` (mapper/mod.rs). -/
def map_reference (schema : SchemaObject) (ctx : LanguageContext) : Option String :=
  match schema.reference with
  | some r =>
    match ref_to_name r with
    | .ok n => some (ctx.type_name n)
    | .error _ => none
  | none => none

/-- `map_primitive` (mapper/mod.rs). -/
def map_primitive (schema : SchemaObject) : Option InstanceType :=
  match schema.instance_type with
  | some (.Single t) => some t
  | some (.Vec list) => list.head?
  | none => none

/-- Map a list of union alternatives with a given mapper, propagating fuel
exhaustion: the shared recursive-join shape of the `map_type`s. -/
def traverse_types (f : SchemaObject → Option String) :
    List SchemaObject → Option (List String)
  | [] => some []
  | s :: rest =>
    match f s with
    | none => none
    | some t => (traverse_types f rest).map (fun more => t :: more)

namespace mapper.ts

/-- `type_name` (mapper/ts.rs). -/
def type_name (raw : String) : String := sanitize_identifier raw

/-- `field_name` (mapper/ts.rs): lower-case the first character and pass
the rest through unchanged; `"field"` for the empty string. -/
def field_name (raw : String) : String :=
  match raw.data with
  | [] => "field"
  | first :: rest => String.mk (first.toLower :: rest)

/-- `map_type` (mapper/ts.rs), with fuel.  The classification order of the
source is kept: reference, union (`oneOf` then `anyOf`), literal-string
enumeration, array, object map, primitive, `any` fallback; the `shape` and
`from_enum` closures are the fall-through tail of the source function. -/
def map_type : Nat → SchemaObject → LanguageContext → Option String
  | 0, _, _ => none
  | fuel + 1, schema, ctx =>
    let shape : Unit → Option String := fun _ =>
      match map_primitive schema with
      | some .Array =>
        match schema.array with
        | some array =>
          match array_item_schema array with
          | some item => (map_type fuel item ctx).map (fun t => t ++ "[]")
          | none => some "any[]"
        | none => some "any[]"
      | some .Object =>
        match schema.object with
        | some object =>
          match object_additional_properties object with
          | some additional =>
              (map_type fuel additional ctx).map
                (fun t => "Record<string, " ++ t ++ ">")
          | none => some "Record<string, any>"
        | none => some "Record<string, any>"
      | some .String => some "string"
      | some .Integer => some "number"
      | some .Number => some "number"
      | some .Boolean => some "boolean"
      | some .Null => some "null"
      | none => some "any"
    let from_enum : Unit → Option String := fun _ =>
      match schema.enum_values with
      | some enum_values =>
        let variants := enum_values.filterMap (fun v =>
          v.as_str.map (fun s => "\"" ++ s ++ "\""))
        if variants.isEmpty then shape () else some (String.intercalate " | " variants)
      | none => shape ()
    match map_reference schema ctx with
    | some reference => some reference
    | none =>
      match schema.subschemas with
      | some subschemas =>
        match one_of subschemas with
        | some options =>
            (traverse_types (fun s => map_type fuel s ctx) options).map
              (String.intercalate " | ")
        | none =>
          match any_of subschemas with
          | some options =>
              (traverse_types (fun s => map_type fuel s ctx) options).map
                (String.intercalate " | ")
          | none => from_enum ()
      | none => from_enum ()

end mapper.ts

namespace mapper.python

/-- `type_name` (mapper/python.rs). -/
def type_name (raw : String) : String := sanitize_identifier raw

/-- `field_name` (mapper/python.rs): the raw name unchanged. -/
def field_name (raw : String) : String := raw

/-- `map_type` (mapper/python.rs), with fuel; same classification order as
the ts mapper, with python rendering idioms. -/
def map_type : Nat → SchemaObject → LanguageContext → Option String
  | 0, _, _ => none
  | fuel + 1, schema, ctx =>
    let shape : Unit → Option String := fun _ =>
      match map_primitive schema with
      | some .Array =>
        match schema.array with
        | some array =>
          match array_item_schema array with
          | some item => (map_type fuel item ctx).map (fun t => "List[" ++ t ++ "]")
          | none => some "List[Any]"
        | none => some "List[Any]"
      | some .Object =>
        match schema.object with
        | some object =>
          match object_additional_properties object with
          | some additional =>
              (map_type fuel additional ctx).map (fun t => "Dict[str, " ++ t ++ "]")
          | none => some "Dict[str, Any]"
        | none => some "Dict[str, Any]"
      | some .String => some "str"
      | some .Integer => some "int"
      | some .Number => some "float"
      | some .Boolean => some "bool"
      | some .Null => some "None"
      | none => some "Any"
    let from_enum : Unit → Option String := fun _ =>
      match schema.enum_values with
      | some enum_values =>
        let variants := enum_values.filterMap (fun v =>
          v.as_str.map (fun s => "\"" ++ s ++ "\""))
        if variants.isEmpty then shape ()
        else some ("Literal[" ++ String.intercalate ", " variants ++ "]")
      | none => shape ()
    match map_reference schema ctx with
    | some reference => some reference
    | none =>
      match schema.subschemas with
      | some subschemas =>
        match one_of subschemas with
        | some options =>
            (traverse_types (fun s => map_type fuel s ctx) options).map
              (fun joined => "Union[" ++ String.intercalate ", " joined ++ "]")
        | none =>
          match any_of subschemas with
          | some options =>
              (traverse_types (fun s => map_type fuel s ctx) options).map
                (fun joined => "Union[" ++ String.intercalate ", " joined ++ "]")
          | none => from_enum ()
      | none => from_enum ()

end mapper.python

namespace mapper.go

/-- `type_name` (mapper/go.rs). -/
def type_name (raw : String) : String := sanitize_identifier raw

/-- `field_name` (mapper/go.rs): sanitize, then upper-case the first
character (the sanitized identifier is ASCII, so the byte-level
`make_ascii_uppercase` of the source is character-level uppercasing). -/
def field_name (raw : String) : String :=
  match (sanitize_identifier raw).data with
  | [] => sanitize_identifier raw
  | first :: rest => String.mk (first.toUpper :: rest)

/-- `map_type` (mapper/go.rs), with fuel: a union renders as the loose
`interface{}` fallback with no recursion, and there is no enumeration
step. -/
def map_type : Nat → SchemaObject → LanguageContext → Option String
  | 0, _, _ => none
  | fuel + 1, schema, ctx =>
    let shape : Unit → Option String := fun _ =>
      match map_primitive schema with
      | some .Array =>
        match schema.array with
        | some array =>
          match array_item_schema array with
          | some item => (map_type fuel item ctx).map (fun t => "[]" ++ t)
          | none => some "[]interface{}"
        | none => some "[]interface{}"
      | some .Object =>
        match schema.object with
        | some object =>
          match object_additional_properties object with
          | some additional =>
              (map_type fuel additional ctx).map (fun t => "map[string]" ++ t)
          | none => some "map[string]interface{}"
        | none => some "map[string]interface{}"
      | some .String => some "string"
      | some .Integer => some "int64"
      | some .Number => some "float64"
      | some .Boolean => some "bool"
      | some .Null => some "interface{}"
      | none => some "interface{}"
    match map_reference schema ctx with
    | some reference => some reference
    | none =>
      match schema.subschemas with
      | some subschemas =>
        if (one_of subschemas).isSome || (any_of subschemas).isSome then
          some "interface{}"
        else shape ()
      | none => shape ()

end mapper.go

namespace mapper.rust

/-- `type_name` (mapper/rust.rs). -/
def type_name (raw : String) : String := sanitize_identifier raw

/-- One step of `field_name`'s scan (mapper/rust.rs): keep alphanumerics
(lower-casing the character at index 0), collapse every other run of
characters into a single underscore.  The source's
`out.ends_with('_')` is modelled as a last-character check, which is what
it means for the one-character pattern `'_'`. -/
def field_name_step (out : String) (p : Nat × Char) : String :=
  if p.2.isAlphanum then
    if p.1 == 0 then out.push p.2.toLower else out.push p.2
  else if !(out.data.getLast? == some '_') then out.push '_'
  else out

/-- `field_name` (mapper/rust.rs). -/
def field_name (raw : String) : String :=
  let out := raw.data.enum.foldl field_name_step ""
  if out = "" then "field" else out

/-- `map_type` (mapper/rust.rs), with fuel: a union renders each
alternative and joins them inside a `std::vec::Vec<...>` container, and
there is no enumeration step. -/
def map_type : Nat → SchemaObject → LanguageContext → Option String
  | 0, _, _ => none
  | fuel + 1, schema, ctx =>
    let shape : Unit → Option String := fun _ =>
      match map_primitive schema with
      | some .Array =>
        match schema.array with
        | some array =>
          match array_item_schema array with
          | some item => (map_type fuel item ctx).map (fun t => "Vec<" ++ t ++ ">")
          | none => some "Vec<serde_json::Value>"
        | none => some "Vec<serde_json::Value>"
      | some .Object =>
        match schema.object with
        | some object =>
          match object_additional_properties object with
          | some additional =>
              (map_type fuel additional ctx).map
                (fun t => "std::collections::HashMap<String, " ++ t ++ ">")
          | none => some "std::collections::HashMap<String, serde_json::Value>"
        | none => some "std::collections::HashMap<String, serde_json::Value>"
      | some .String => some "String"
      | some .Integer => some "i64"
      | some .Number => some "f64"
      | some .Boolean => some "bool"
      | some .Null => some "Option<serde_json::Value>"
      | none => some "serde_json::Value"
    match map_reference schema ctx with
    | some reference => some reference
    | none =>
      match schema.subschemas with
      | some subschemas =>
        match one_of subschemas with
        | some options =>
            (traverse_types (fun s => map_type fuel s ctx) options).map
              (fun joined => "std::vec::Vec<" ++ String.intercalate " | " joined ++ ">")
        | none =>
          match any_of subschemas with
          | some options =>
              (traverse_types (fun s => map_type fuel s ctx) options).map
                (fun joined => "std::vec::Vec<" ++ String.intercalate " | " joined ++ ">")
          | none => shape ()
      | none => shape ()

end mapper.rust

/-- `build_context` (mapper/mod.rs): one sanitized display name per catalog
entry, keyed by the entry's original name, plus the language tag. -/
def build_context (types : List ResolvedType) (lang : String) : LanguageContext :=
  { type_names := types.map (fun ty =>
      (ty.name,
        match lang with
        | "ts" | "typescript" => mapper.ts.type_name ty.name
        | "python" => mapper.python.type_name ty.name
        | "go" => mapper.go.type_name ty.name
        | "rust" => mapper.rust.type_name ty.name
        | _ => sanitize_identifier ty.name)),
    language := lang }

/-- `maybe_optional` (gen.rs): required fields keep the base expression,
optional fields are wrapped in the language's optional idiom. -/
def maybe_optional (self : String) (required : Bool) (ctx : LanguageContext) : String :=
  if required then self else ctx.wrap_optional self

/-- `ResolvedField::ts_type` (gen.rs): map, then apply the shared optional
wrap. -/
def ResolvedField.ts_type (field : ResolvedField) (fuel : Nat) (ctx : LanguageContext) :
    Option String :=
  (mapper.ts.map_type fuel field.schema ctx).map
    (fun t => maybe_optional t field.required ctx)

/-- `ResolvedField::python_type` (gen.rs). -/
def ResolvedField.python_type (field : ResolvedField) (fuel : Nat) (ctx : LanguageContext) :
    Option String :=
  (mapper.python.map_type fuel field.schema ctx).map
    (fun t => maybe_optional t field.required ctx)

/-- `ResolvedField::go_type` (gen.rs): the mapped type with no optional
wrap step. -/
def ResolvedField.go_type (field : ResolvedField) (fuel : Nat) (ctx : LanguageContext) :
    Option String :=
  mapper.go.map_type fuel field.schema ctx

/-- `ResolvedField::rust_type` (gen.rs). -/
def ResolvedField.rust_type (field : ResolvedField) (fuel : Nat) (ctx : LanguageContext) :
    Option String :=
  (mapper.rust.map_type fuel field.schema ctx).map
    (fun t => maybe_optional t field.required ctx)

/-! ## Character-level facts used by the identifier lemmas -/

/-- ASCII uppercasing keeps a character alphanumeric. -/
theorem Char.toUpper_isAlphanum (c : Char) (h : c.isAlphanum = true) :
    c.toUpper.isAlphanum = true := by
  unfold Char.toUpper
  by_cases hr : c.toNat ≥ 97 ∧ c.toNat ≤ 122
  · simp only [hr, and_self, if_true]
    obtain ⟨h1, h2⟩ := hr
    have hv : (c.toNat - 32).isValidChar := by left; omega
    have hval : (Char.ofNat (c.toNat - 32)).val.toNat = c.toNat - 32 := by
      rw [Char.ofNat, dif_pos hv]
      rfl
    have hup : (Char.ofNat (c.toNat - 32)).isUpper = true := by
      simp only [Char.isUpper, Bool.and_eq_true, decide_eq_true_eq]
      constructor
      · show (65 : UInt32).toNat ≤ (Char.ofNat (c.toNat - 32)).val.toNat
        rw [hval]
        have : (65 : UInt32).toNat = 65 := by decide
        omega
      · show (Char.ofNat (c.toNat - 32)).val.toNat ≤ (90 : UInt32).toNat
        rw [hval]
        have : (90 : UInt32).toNat = 90 := by decide
        omega
    simp [Char.isAlphanum, Char.isAlpha, hup]
  · simp only [if_neg hr]
    exact h

/-- ASCII lowercasing keeps a character alphanumeric. -/
theorem Char.toLower_isAlphanum (c : Char) (h : c.isAlphanum = true) :
    c.toLower.isAlphanum = true := by
  unfold Char.toLower
  by_cases hr : c.toNat ≥ 65 ∧ c.toNat ≤ 90
  · simp only [hr, and_self, if_true]
    obtain ⟨h1, h2⟩ := hr
    have hv : (c.toNat + 32).isValidChar := by left; omega
    have hval : (Char.ofNat (c.toNat + 32)).val.toNat = c.toNat + 32 := by
      rw [Char.ofNat, dif_pos hv]
      rfl
    have hlow : (Char.ofNat (c.toNat + 32)).isLower = true := by
      simp only [Char.isLower, Bool.and_eq_true, decide_eq_true_eq]
      constructor
      · show (97 : UInt32).toNat ≤ (Char.ofNat (c.toNat + 32)).val.toNat
        rw [hval]
        have : (97 : UInt32).toNat = 97 := by decide
        omega
      · show (Char.ofNat (c.toNat + 32)).val.toNat ≤ (122 : UInt32).toNat
        rw [hval]
        have : (122 : UInt32).toNat = 122 := by decide
        omega
    simp [Char.isAlphanum, Char.isAlpha, hlow]
  · simp only [if_neg hr]
    exact h

/-! ## Lemmas about the identifier sanitizer -/

/-- Every character the sanitizer scan adds is alphanumeric, so the scan
preserves all-alphanumeric outputs. -/
theorem sanitize_fold_alnum (cs : List Char) :
    ∀ (acc : String × Bool), (∀ c ∈ acc.1.data, c.isAlphanum = true) →
      ∀ c ∈ (cs.foldl sanitize_step acc).1.data, c.isAlphanum = true := by
  induction cs with
  | nil => intro acc hacc c hc; exact hacc c hc
  | cons ch rest ih =>
    intro acc hacc
    apply ih
    intro c hc
    unfold sanitize_step at hc
    by_cases ha : ch.isAlphanum = true
    · rw [if_pos ha] at hc
      by_cases hcap : acc.2 = true
      · rw [if_pos hcap] at hc
        simp only at hc
        have : c ∈ acc.1.data ++ [ch.toUpper] := hc
        rcases List.mem_append.mp this with h | h
        · exact hacc c h
        · rw [List.mem_singleton.mp h]
          exact Char.toUpper_isAlphanum ch ha
      · rw [if_neg hcap] at hc
        simp only at hc
        have : c ∈ acc.1.data ++ [ch] := hc
        rcases List.mem_append.mp this with h | h
        · exact hacc c h
        · rw [List.mem_singleton.mp h]
          exact ha
    · rw [if_neg ha] at hc
      exact hacc c hc

/-- A scan over separators only leaves the accumulated output unchanged. -/
theorem sanitize_fold_sep (cs : List Char) :
    ∀ (acc : String × Bool), (∀ c ∈ cs, c.isAlphanum = false) →
      (cs.foldl sanitize_step acc).1 = acc.1 := by
  induction cs with
  | nil => intro acc _; rfl
  | cons ch rest ih =>
    intro acc hsep
    have hch : ch.isAlphanum = false := hsep ch (List.mem_cons_self _ _)
    have hrest : ∀ c ∈ rest, c.isAlphanum = false := fun c hc =>
      hsep c (List.mem_cons_of_mem _ hc)
    show ((rest.foldl sanitize_step (sanitize_step acc ch))).1 = acc.1
    rw [ih _ hrest]
    unfold sanitize_step
    rw [if_neg (by simp [hch])]

/-- The sanitizer never returns the empty string. -/
theorem sanitize_identifier_ne_empty (name : String) : sanitize_identifier name ≠ "" := by
  unfold sanitize_identifier
  by_cases h : (name.data.foldl sanitize_step ("", true)).1 = ""
  · rw [if_pos h]; decide
  · rw [if_neg h]; exact h

/-- Every character of the sanitizer's output is ASCII alphanumeric. -/
theorem sanitize_identifier_alnum (name : String) :
    ∀ c ∈ (sanitize_identifier name).data, c.isAlphanum = true := by
  unfold sanitize_identifier
  by_cases h : (name.data.foldl sanitize_step ("", true)).1 = ""
  · rw [if_pos h]; decide
  · rw [if_neg h]
    apply sanitize_fold_alnum
    intro c hc
    simp at hc

/-- Claim C8: an input with no ASCII alphanumeric character sanitizes to the
fixed placeholder `"Type"`, and every output of `sanitize_identifier`
contains only ASCII alphanumeric characters. -/
theorem c8_sanitize_identifier (s : String) :
    ((∀ c ∈ s.data, c.isAlphanum = false) → sanitize_identifier s = "Type") ∧
    (∀ c ∈ (sanitize_identifier s).data, c.isAlphanum = true) := by
  constructor
  · intro hsep
    unfold sanitize_identifier
    have h0 : (s.data.foldl sanitize_step ("", true)).1 = "" :=
      sanitize_fold_sep s.data ("", true) hsep
    rw [if_pos h0]
  · exact sanitize_identifier_alnum s

/-- Witness for C8 at the concrete inputs `"--"` and `"a b"`. -/
theorem c8_sanitize_identifier_witness :
    (∀ c ∈ "--".data, c.isAlphanum = false) ∧
    sanitize_identifier "--" = "Type" ∧
    (∀ c ∈ (sanitize_identifier "a b").data, c.isAlphanum = true) :=
  ⟨by decide, (c8_sanitize_identifier "--").1 (by decide),
   (c8_sanitize_identifier "a b").2⟩

/-! ## Lemmas for the per-language name functions -/

/-- The rust field-name scan only ever appends alphanumerics or
underscores. -/
theorem rust_field_fold_inv (ps : List (Nat × Char)) :
    ∀ (out : String), (∀ c ∈ out.data, c.isAlphanum = true ∨ c = '_') →
      ∀ c ∈ (ps.foldl mapper.rust.field_name_step out).data, c.isAlphanum = true ∨ c = '_' := by
  induction ps with
  | nil => intro out hout c hc; exact hout c hc
  | cons p rest ih =>
    intro out hout
    apply ih
    intro c hc
    unfold mapper.rust.field_name_step at hc
    by_cases ha : p.2.isAlphanum = true
    · rw [if_pos ha] at hc
      by_cases hi : (p.1 == 0) = true
      · rw [if_pos hi] at hc
        rcases List.mem_append.mp hc with h | h
        · exact hout c h
        · rw [List.mem_singleton.mp h]
          exact Or.inl (Char.toLower_isAlphanum _ ha)
      · rw [if_neg hi] at hc
        rcases List.mem_append.mp hc with h | h
        · exact hout c h
        · rw [List.mem_singleton.mp h]
          exact Or.inl ha
    · rw [if_neg ha] at hc
      by_cases hl : (!(out.data.getLast? == some '_')) = true
      · rw [if_pos hl] at hc
        rcases List.mem_append.mp hc with h | h
        · exact hout c h
        · rw [List.mem_singleton.mp h]
          exact Or.inr rfl
      · rw [if_neg hl] at hc
        exact hout c hc

/-- A string built from a nonempty character list is nonempty. -/
theorem string_mk_ne_empty (c : Char) (cs : List Char) : String.mk (c :: cs) ≠ "" := by
  intro h
  have h2 : (c :: cs) = ([] : List Char) := by
    have h3 := congrArg String.data h
    simp at h3
  exact List.noConfusion h2

/-- Claim C7 counterexample: the ts field-name function passes a space
through, and the python field-name function passes a hyphen through, so not
every language's field-name function strips punctuation. -/
theorem c7_counterexample :
    mapper.ts.field_name "display name" = "display name" ∧
    ' ' ∈ (mapper.ts.field_name "display name").data ∧
    mapper.python.field_name "avatar-url" = "avatar-url" ∧
    '-' ∈ (mapper.python.field_name "avatar-url").data :=
  ⟨rfl, by decide, rfl, by decide⟩

/-- Claim C7 (amended): the type-name functions of all four languages and
the field-name functions of go and rust produce nonempty identifiers free
of spaces, hyphens and punctuation (go: ASCII alphanumerics only; rust:
alphanumerics and underscores); the python field-name function returns the
raw name unchanged and the ts field-name function only lower-cases the
first character, so punctuation in the raw name survives in those two. -/
theorem c7_identifier_validity (raw : String) :
    (mapper.ts.type_name raw ≠ "" ∧
      ∀ c ∈ (mapper.ts.type_name raw).data, c.isAlphanum = true) ∧
    (mapper.python.type_name raw ≠ "" ∧
      ∀ c ∈ (mapper.python.type_name raw).data, c.isAlphanum = true) ∧
    (mapper.go.type_name raw ≠ "" ∧
      ∀ c ∈ (mapper.go.type_name raw).data, c.isAlphanum = true) ∧
    (mapper.rust.type_name raw ≠ "" ∧
      ∀ c ∈ (mapper.rust.type_name raw).data, c.isAlphanum = true) ∧
    (mapper.go.field_name raw ≠ "" ∧
      ∀ c ∈ (mapper.go.field_name raw).data, c.isAlphanum = true) ∧
    (mapper.rust.field_name raw ≠ "" ∧
      ∀ c ∈ (mapper.rust.field_name raw).data, c.isAlphanum = true ∨ c = '_') ∧
    mapper.python.field_name raw = raw ∧
    (∀ first rest, raw.data = first :: rest →
      (mapper.ts.field_name raw).data = first.toLower :: rest) := by
  refine ⟨⟨sanitize_identifier_ne_empty raw, sanitize_identifier_alnum raw⟩,
          ⟨sanitize_identifier_ne_empty raw, sanitize_identifier_alnum raw⟩,
          ⟨sanitize_identifier_ne_empty raw, sanitize_identifier_alnum raw⟩,
          ⟨sanitize_identifier_ne_empty raw, sanitize_identifier_alnum raw⟩,
          ?_, ?_, rfl, ?_⟩
  · unfold mapper.go.field_name
    cases h : (sanitize_identifier raw).data with
    | nil =>
      exact ⟨sanitize_identifier_ne_empty raw, sanitize_identifier_alnum raw⟩
    | cons first rest =>
      constructor
      · exact string_mk_ne_empty _ _
      · intro c hc
        rcases List.mem_cons.mp hc with h1 | h1
        · rw [h1]
          apply Char.toUpper_isAlphanum
          exact sanitize_identifier_alnum raw first (h ▸ List.mem_cons_self _ _)
        · exact sanitize_identifier_alnum raw c (h ▸ List.mem_cons_of_mem _ h1)
  · unfold mapper.rust.field_name
    by_cases h : (raw.data.enum.foldl mapper.rust.field_name_step "") = ""
    · rw [if_pos h]
      exact ⟨by decide, by decide⟩
    · rw [if_neg h]
      refine ⟨h, ?_⟩
      apply rust_field_fold_inv
      intro c hc
      simp at hc
  · intro first rest h
    unfold mapper.ts.field_name
    rw [h]

/-- Witness for C7 at the concrete input `"a b"`. -/
theorem c7_identifier_validity_witness :
    ("a b".data = 'a' :: " b".data) ∧
    (mapper.ts.field_name "a b").data = 'a'.toLower :: " b".data :=
  ⟨rfl, (c7_identifier_validity "a b").2.2.2.2.2.2.2 'a' " b".data rfl⟩

/-! ## Lemmas about reference-name extraction -/

/-- Rust's `split` always yields at least one segment. -/
theorem split_parts_ne_nil (cs : List Char) : split_parts cs ≠ [] := by
  induction cs with
  | nil => simp [split_parts]
  | cons c rest ih =>
    unfold split_parts
    cases h : split_parts rest with
    | nil => simp
    | cons p ps =>
      by_cases hc : c = '/' <;> simp [hc]

/-- Splitting a slash-free list yields that single segment. -/
theorem split_parts_no_slash (cs : List Char) (h : '/' ∉ cs) : split_parts cs = [cs] := by
  induction cs with
  | nil => rfl
  | cons c rest ih =>
    have hc : ¬ (c = '/') := fun he => h (he ▸ List.mem_cons_self _ _)
    have hrest : '/' ∉ rest := fun hm => h (List.mem_cons_of_mem _ hm)
    unfold split_parts
    rw [ih hrest]
    simp [hc]

/-- A list containing a slash splits into at least two segments. -/
theorem split_parts_length_two (cs : List Char) (h : '/' ∈ cs) :
    2 ≤ (split_parts cs).length := by
  induction cs with
  | nil => simp at h
  | cons c rest ih =>
    unfold split_parts
    cases hs : split_parts rest with
    | nil => exact absurd hs (split_parts_ne_nil rest)
    | cons p ps =>
      by_cases hc : c = '/'
      · simp [hc]
      · have hr : '/' ∈ rest := by
          rcases List.mem_cons.mp h with h1 | h1
          · exact absurd h1.symm hc
          · exact h1
        have := ih hr
        rw [hs] at this
        simp only [List.length_cons] at this
        simp [hc]
        omega

/-- The last segment of `as ++ '/' :: bs` with slash-free `bs` is `bs`. -/
theorem split_parts_getLast_slash (bs : List Char) (hbs : '/' ∉ bs) :
    ∀ as, (split_parts (as ++ '/' :: bs)).getLast? = some bs := by
  intro as
  induction as with
  | nil =>
    show (split_parts ('/' :: bs)).getLast? = some bs
    unfold split_parts
    rw [split_parts_no_slash bs hbs]
    rfl
  | cons a as ih =>
    show (split_parts (a :: (as ++ '/' :: bs))).getLast? = some bs
    unfold split_parts
    cases hsp : split_parts (as ++ '/' :: bs) with
    | nil => exact absurd hsp (split_parts_ne_nil _)
    | cons p ps =>
      rw [hsp] at ih
      have hlen : 2 ≤ (p :: ps).length := by
        rw [← hsp]
        exact split_parts_length_two _ (by simp)
      cases ps with
      | nil => simp at hlen
      | cons q qs =>
        by_cases ha : a = '/'
        · simp only [ha, if_true]
          rw [List.getLast?_cons_cons]
          exact ih
        · simp only [ha, if_false]
          rw [List.getLast?_cons_cons]
          exact List.getLast?_cons_cons.symm.trans ih

/-- `ref_to_name` never fails: the error branch of the source is
unreachable because `split` always yields a segment. -/
theorem ref_to_name_ok (r : String) : ∃ s, ref_to_name r = Except.ok s := by
  unfold ref_to_name
  cases h : (split_parts r.data).getLast? with
  | none =>
    cases hs : split_parts r.data with
    | nil => exact absurd hs (split_parts_ne_nil _)
    | cons p ps =>
      rw [hs] at h
      simp [List.getLast?_eq_none_iff] at h
  | some part => exact ⟨String.mk part, rfl⟩

/-- Claim C6 counterexample: a reference with no separator does not fail;
it resolves to the whole string. -/
theorem c6_counterexample :
    ('/' ∉ "Foo".data) ∧
    ref_to_name "Foo" = Except.ok "Foo" ∧
    (ref_to_name "Foo").isOk = true :=
  ⟨by decide, rfl, rfl⟩

/-- Claim C6 (amended): `ref_to_name` never returns the malformed-reference
error.  On a string with no separator it succeeds with the whole string; on
`as ++ "/" ++ bs` with slash-free tail `bs` it succeeds with the final
segment `bs`. -/
theorem c6_ref_to_name (r : String) :
    (∃ s, ref_to_name r = Except.ok s) ∧
    ('/' ∉ r.data → ref_to_name r = Except.ok r) ∧
    (∀ as bs, r.data = as ++ '/' :: bs → '/' ∉ bs →
      ref_to_name r = Except.ok (String.mk bs)) := by
  refine ⟨ref_to_name_ok r, ?_, ?_⟩
  · intro h
    unfold ref_to_name
    rw [split_parts_no_slash r.data h]
    show Except.ok (String.mk r.data) = Except.ok r
    cases r
    rfl
  · intro as bs hr hbs
    unfold ref_to_name
    rw [hr, split_parts_getLast_slash bs hbs as]

/-- Witness for C6 at the concrete inputs `"a/b"` and `"Foo"`. -/
theorem c6_ref_to_name_witness :
    ("a/b".data = ['a'] ++ '/' :: ['b']) ∧ ('/' ∉ ['b']) ∧
    ref_to_name "a/b" = Except.ok (String.mk ['b']) ∧
    ('/' ∉ "Bar".data) ∧ ref_to_name "Bar" = Except.ok "Bar" :=
  ⟨rfl, by decide, (c6_ref_to_name "a/b").2.2 ['a'] ['b'] rfl (by decide),
   by decide, (c6_ref_to_name "Bar").2.1 (by decide)⟩

/-! ## Concrete fixtures used by witnesses and counterexamples -/

/-- A plain string-typed schema object. -/
def string_schema : SchemaObject := .mk (some (.Single .String)) none none none none none

/-- The same schema as a `Schema` node. -/
def string_schema_node : Schema := .obj string_schema

/-- A structurally empty schema node. -/
def empty_schema_node : Schema := .obj (.mk none none none none none none)

/-- An object validation declaring `"b"` before `"a"`, requiring `"a"`. -/
def props_ba : ObjectValidation :=
  .mk [("b", string_schema_node), ("a", string_schema_node)] ["a"] none

/-- A schema node whose only content is the `props_ba` object shape. -/
def object_schema_ba : SchemaObject := .mk none none none none (some props_ba) none

/-- Claim C1: when a resolved node reaches the named-object-properties
branch (no reference, no `allOf`), `collect_fields` emits exactly one
`ResolvedField` per declared property, in the declaration order of the
properties sequence, tagged required exactly when the name is in the
required set.  The properties sequence is modelled in document declaration
order (schemars' `preserve_order` map). -/
theorem c1_object_field_order (fuel : Nat) (comps : List (String × Schema))
    (o : SchemaObject) (object : ObjectValidation)
    (h1 : o.reference = none)
    (h2 : o.subschemas.bind SubschemaValidation.all_of = none)
    (h3 : o.object = some object) :
    collect_fields (fuel + 1) o comps =
      some (.ok (object.properties.map (fun p =>
        ({ name := p.1, schema := normalize_schema p.2,
           required := object.required.contains p.1 } : ResolvedField)))) ∧
    (object.properties.map (fun p =>
        ({ name := p.1, schema := normalize_schema p.2,
           required := object.required.contains p.1 } : ResolvedField))).map
        ResolvedField.name = object.properties.map Prod.fst := by
  constructor
  · cases hss : o.subschemas with
    | none => simp [collect_fields, h1, hss, object_fields, h3]
    | some ss =>
      have hall : ss.all_of = none := by
        rw [hss] at h2
        simpa using h2
      simp [collect_fields, h1, hss, hall, object_fields, h3]
  · rw [List.map_map]
    rfl

/-- Witness for C1: two properties declared as `"b"` then `"a"`, with
`"a"` required, resolve to the fields `"b"` (optional) then `"a"`
(required), preserving declaration order. -/
theorem c1_object_field_order_witness :
    object_schema_ba.reference = none ∧
    object_schema_ba.subschemas.bind SubschemaValidation.all_of = none ∧
    object_schema_ba.object = some props_ba ∧
    collect_fields 1 object_schema_ba [] =
      some (.ok (props_ba.properties.map (fun p =>
        ({ name := p.1, schema := normalize_schema p.2,
           required := props_ba.required.contains p.1 } : ResolvedField)))) ∧
    props_ba.properties.map Prod.fst = ["b", "a"] ∧
    props_ba.required.contains "b" = false ∧
    props_ba.required.contains "a" = true :=
  ⟨rfl, rfl, rfl,
   (c1_object_field_order 0 [] object_schema_ba props_ba rfl rfl rfl).1,
   rfl, rfl, rfl⟩

/-- The declaration order of a two-schema components section. -/
def decl_order : List (String × Schema) :=
  [("A", empty_schema_node), ("B", empty_schema_node)]

/-- A legal `HashMap` iteration order of the same section: its reverse. -/
def iter_order : List (String × Schema) := decl_order.reverse

/-- A specification whose components map iterates as `iter_order`. -/
def spec_ba : OpenRpc := { openrpc := "1.0.0", info := none, methods := [],
                           components := some { schemas := some iter_order } }

/-- Claim C2 counterexample: the catalog follows the `HashMap` iteration
sequence, and a hash map holding the entries declared `A` then `B` may
iterate `B` then `A`; the resulting catalog order `["B", "A"]` differs from
the declaration order `["A", "B"]`. -/
theorem c2_counterexample :
    List.Perm iter_order decl_order ∧
    decl_order.map Prod.fst = ["A", "B"] ∧
    (resolve_components 1 spec_ba).map (fun r => r.map (fun l => l.map ResolvedType.name)) =
      some (.ok ["B", "A"]) ∧
    (["B", "A"] : List String) ≠ ["A", "B"] :=
  ⟨List.Perm.swap _ _ _, rfl, rfl, by decide⟩

/-- The loop of `resolve_components` preserves the order of the sequence it
iterates. -/
theorem resolve_each_names (fuel : Nat) (comps : List (String × Schema)) :
    ∀ (l : List (String × Schema)) (types : List ResolvedType),
      resolve_each fuel comps l = some (.ok types) →
      types.map ResolvedType.name = l.map Prod.fst := by
  intro l
  induction l with
  | nil =>
    intro types h
    simp [resolve_each] at h
    simp [h]
  | cons p rest ih =>
    intro types h
    obtain ⟨name, schema⟩ := p
    simp only [resolve_each] at h
    cases hc : collect_fields fuel (normalize_schema schema) comps with
    | none => rw [hc] at h; exact absurd h (by simp)
    | some r =>
      rw [hc] at h
      cases r with
      | error e => simp at h
      | ok fields =>
        simp only at h
        cases hr : resolve_each fuel comps rest with
        | none => rw [hr] at h; exact absurd h (by simp)
        | some r2 =>
          rw [hr] at h
          cases r2 with
          | error e => simp at h
          | ok tail =>
            simp only [Option.some.injEq, Except.ok.injEq] at h
            rw [← h]
            simp only [List.map_cons]
            rw [ih tail hr]

/-- Claim C2 (amended): the catalog applies no sorting — its order is
exactly the iteration order of the components map.  Because that map is an
unordered `std::collections::HashMap`, the iteration order (and hence the
catalog order) is not in general the specification's declaration order. -/
theorem c2_catalog_order (fuel : Nat) (spec : OpenRpc) (comps : List (String × Schema))
    (types : List ResolvedType)
    (h1 : spec.components.bind Components.schemas = some comps)
    (h2 : resolve_components fuel spec = some (.ok types)) :
    types.map ResolvedType.name = comps.map Prod.fst := by
  unfold resolve_components at h2
  rw [h1] at h2
  exact resolve_each_names fuel comps comps types h2

/-- Witness for C2 (amended) at the concrete specification `spec_ba`. -/
theorem c2_catalog_order_witness :
    spec_ba.components.bind Components.schemas = some iter_order ∧
    (∃ types, resolve_components 1 spec_ba = some (.ok types) ∧
      types.map ResolvedType.name = iter_order.map Prod.fst) := by
  refine ⟨rfl, ?_⟩
  cases hres : resolve_components 1 spec_ba with
  | none =>
    exfalso
    have hmap : (resolve_components 1 spec_ba).map
        (fun r => r.map (fun l => l.map ResolvedType.name)) = some (.ok ["B", "A"]) := rfl
    rw [hres] at hmap
    simp at hmap
  | some r =>
    cases r with
    | error e =>
      exfalso
      have hmap : (resolve_components 1 spec_ba).map
          (fun r => r.map (fun l => l.map ResolvedType.name)) = some (.ok ["B", "A"]) := rfl
      rw [hres] at hmap
      simp [Except.map] at hmap
    | ok types =>
      exact ⟨types, rfl, c2_catalog_order 1 spec_ba iter_order types rfl hres⟩

/-- Resolving composed members whose individual results are known
concatenates those results in member order. -/
theorem traverse_fields_forall2 (f : Schema → Option (Except String (List ResolvedField)))
    (subs : List Schema) (parts : List (List ResolvedField))
    (h : List.Forall₂ (fun sub fields => f sub = some (Except.ok fields)) subs parts) :
    traverse_fields f subs = some (.ok parts.flatten) := by
  induction h with
  | nil => rfl
  | cons hf _ ih =>
    unfold traverse_fields
    rw [hf, ih]
    rfl

/-- Claim C3: on an `allOf` node (and no reference), `collect_fields`
returns exactly the concatenation of the members' field lists in member
declaration order, with no deduplication by field name — duplicated names
across branches are all kept. -/
theorem c3_all_of_concat (fuel : Nat) (comps : List (String × Schema))
    (o : SchemaObject) (ss : SubschemaValidation) (subs : List Schema)
    (parts : List (List ResolvedField))
    (h1 : o.reference = none)
    (h2 : o.subschemas = some ss)
    (h3 : ss.all_of = some subs)
    (h4 : List.Forall₂ (fun sub fields =>
      collect_fields fuel (normalize_schema sub) comps = some (Except.ok fields)) subs parts) :
    collect_fields (fuel + 1) o comps = some (.ok parts.flatten) := by
  have ht := traverse_fields_forall2
    (fun sub => collect_fields fuel (normalize_schema sub) comps) subs parts h4
  simp [collect_fields, h1, h2, h3, ht]

/-- A one-required-property object node declaring the field `"x"`. -/
def obj_x_node : Schema :=
  .obj (.mk none none none none (some (.mk [("x", string_schema_node)] ["x"] none)) none)

/-- An `allOf` of two copies of `obj_x_node`. -/
def all_of_xx : SchemaObject :=
  .mk none none (some (.mk (some [obj_x_node, obj_x_node]) none none)) none none none

/-- The resolved field `"x"`. -/
def field_x : ResolvedField := { name := "x", schema := string_schema, required := true }

/-- Witness for C3: composing two branches that both declare `"x"` yields
the field `"x"` twice — concatenation without deduplication. -/
theorem c3_all_of_concat_witness :
    all_of_xx.reference = none ∧
    all_of_xx.subschemas = some (.mk (some [obj_x_node, obj_x_node]) none none) ∧
    (SubschemaValidation.mk (some [obj_x_node, obj_x_node]) none none).all_of =
      some [obj_x_node, obj_x_node] ∧
    List.Forall₂ (fun sub fields =>
      collect_fields 1 (normalize_schema sub) [] = some (Except.ok fields))
      [obj_x_node, obj_x_node] [[field_x], [field_x]] ∧
    collect_fields 2 all_of_xx [] = some (.ok ([[field_x], [field_x]].flatten)) ∧
    [[field_x], [field_x]].flatten.map ResolvedField.name = ["x", "x"] :=
  ⟨rfl, rfl, rfl,
   List.Forall₂.cons rfl (List.Forall₂.cons rfl List.Forall₂.nil),
   c3_all_of_concat 1 [] all_of_xx (.mk (some [obj_x_node, obj_x_node]) none none)
     [obj_x_node, obj_x_node] [[field_x], [field_x]] rfl rfl rfl
     (List.Forall₂.cons rfl (List.Forall₂.cons rfl List.Forall₂.nil)),
   rfl⟩

/-- An optional (non-required) string field. -/
def opt_field : ResolvedField := { name := "x", schema := string_schema, required := false }

/-- A required string field. -/
def req_field : ResolvedField := { name := "x", schema := string_schema, required := true }

/-- An empty-catalog ts naming context. -/
def ts_ctx : LanguageContext := build_context [] "ts"

/-- An empty-catalog python naming context. -/
def python_ctx : LanguageContext := build_context [] "python"

/-- An empty-catalog go naming context. -/
def go_ctx : LanguageContext := build_context [] "go"

/-- An empty-catalog rust naming context. -/
def rust_ctx : LanguageContext := build_context [] "rust"

/-- Claim C4 counterexample: go has the optional idiom `*T` in
`wrap_optional`, but the go rendering path does not apply the wrap step, so
an optional string field renders `"string"`, not `"*string"`. -/
theorem c4_counterexample :
    opt_field.required = false ∧
    ResolvedField.go_type opt_field 1 go_ctx = some "string" ∧
    go_ctx.wrap_optional "string" = "*string" ∧
    (some "string" : Option String) ≠ some "*string" :=
  ⟨rfl, rfl, rfl, by decide⟩

/-- Claim C4 (amended): for ts, python and rust the field-type rendering
applies the shared `maybe_optional` step — a required field keeps the base
expression and an optional field is wrapped in that language's idiom
(`T | null`, `Optional[T]`, `Option<T>`); the go rendering path omits the
wrap step entirely, returning the base expression regardless of the
required flag, so the wrap decision is not uniform across the four
languages. -/
theorem c4_optional_wrap (f : ResolvedField) (fuel : Nat) (ctx : LanguageContext)
    (base : String) :
    (mapper.ts.map_type fuel f.schema ctx = some base → ctx.language = "ts" →
      f.ts_type fuel ctx = some (if f.required then base else base ++ " | null")) ∧
    (mapper.python.map_type fuel f.schema ctx = some base → ctx.language = "python" →
      f.python_type fuel ctx = some (if f.required then base else "Optional[" ++ base ++ "]")) ∧
    (mapper.rust.map_type fuel f.schema ctx = some base → ctx.language = "rust" →
      f.rust_type fuel ctx = some (if f.required then base else "Option<" ++ base ++ ">")) ∧
    (mapper.go.map_type fuel f.schema ctx = some base →
      f.go_type fuel ctx = some base) := by
  refine ⟨?_, ?_, ?_, ?_⟩
  · intro h hl
    unfold ResolvedField.ts_type
    rw [h]
    by_cases hr : f.required <;>
      simp [maybe_optional, LanguageContext.wrap_optional, hl, hr]
  · intro h hl
    unfold ResolvedField.python_type
    rw [h]
    by_cases hr : f.required <;>
      simp [maybe_optional, LanguageContext.wrap_optional, hl, hr]
  · intro h hl
    unfold ResolvedField.rust_type
    rw [h]
    by_cases hr : f.required <;>
      simp [maybe_optional, LanguageContext.wrap_optional, hl, hr]
  · intro h
    unfold ResolvedField.go_type
    rw [h]

/-- Witness for C4: the optional and required string fields rendered for
each language's own context. -/
theorem c4_optional_wrap_witness :
    mapper.ts.map_type 1 string_schema ts_ctx = some "string" ∧
    ts_ctx.language = "ts" ∧
    ResolvedField.ts_type opt_field 1 ts_ctx = some "string | null" ∧
    ResolvedField.ts_type req_field 1 ts_ctx = some "string" ∧
    ResolvedField.python_type opt_field 1 python_ctx = some "Optional[str]" ∧
    ResolvedField.rust_type opt_field 1 rust_ctx = some "Option<String>" ∧
    ResolvedField.go_type opt_field 1 go_ctx = some "string" :=
  ⟨rfl, rfl,
   (c4_optional_wrap opt_field 1 ts_ctx "string").1 rfl rfl,
   (c4_optional_wrap req_field 1 ts_ctx "string").1 rfl rfl,
   (c4_optional_wrap opt_field 1 python_ctx "str").2.1 rfl rfl,
   (c4_optional_wrap opt_field 1 rust_ctx "String").2.2.1 rfl rfl,
   (c4_optional_wrap opt_field 1 go_ctx "string").2.2.2 rfl⟩

/-- Mapping `as_str`-then-quote over wrapped string values keeps every
value: string enumerations lose nothing in the `filter_map`. -/
theorem filterMap_as_str (g : String → String) (ss : List String) :
    (ss.map JsonValue.str).filterMap (fun v => v.as_str.map g) = ss.map g := by
  induction ss with
  | nil => rfl
  | cons s rest ih =>
    rw [List.map_cons, List.filterMap_cons, List.map_cons]
    exact congrArg (fun l => g s :: l) ih

/-- A string enumeration with no declared primitive kind. -/
def enum_ab : SchemaObject :=
  .mk none (some [.str "a", .str "b"]) none none none none

/-- The same enumeration tagged with the string primitive kind. -/
def enum_ab_str : SchemaObject :=
  .mk (some (.Single .String)) (some [.str "a", .str "b"]) none none none none

/-- Claim C5 counterexample: go and rust have no literal-string-union type,
but on a literal-string enumeration with no declared primitive kind they do
not fall through to the plain string primitive — they ignore the
enumeration and yield the permissive fallback. -/
theorem c5_counterexample :
    enum_ab.reference = none ∧
    enum_ab.subschemas = none ∧
    enum_ab.enum_values = some (["a", "b"].map JsonValue.str) ∧
    mapper.go.map_type 1 enum_ab go_ctx = some "interface{}" ∧
    mapper.rust.map_type 1 enum_ab rust_ctx = some "serde_json::Value" ∧
    ("interface{}" : String) ≠ "string" ∧
    ("serde_json::Value" : String) ≠ "String" :=
  ⟨rfl, rfl, rfl, rfl, rfl, by decide, by decide⟩

/-- Claim C5 (amended): on a non-reference, non-union node whose
enumeration is a nonempty list of literal string values, ts and python
render a literal-string-union type; go and rust have no such type and
ignore the enumeration entirely, falling through to the ordinary
classification — which yields the plain string primitive exactly when the
node also declares the string primitive kind, and the permissive fallback
when it declares no kind. -/
theorem c5_enum_rendering (fuel : Nat) (ctx : LanguageContext) (o : SchemaObject)
    (ss : List String)
    (h1 : o.reference = none)
    (h2 : o.subschemas = none)
    (h3 : o.enum_values = some (ss.map JsonValue.str))
    (h4 : ss ≠ []) :
    mapper.ts.map_type (fuel + 1) o ctx =
      some (String.intercalate " | " (ss.map (fun s => "\"" ++ s ++ "\""))) ∧
    mapper.python.map_type (fuel + 1) o ctx =
      some ("Literal[" ++ String.intercalate ", " (ss.map (fun s => "\"" ++ s ++ "\"")) ++ "]") ∧
    (o.instance_type = some (.Single .String) →
      mapper.go.map_type (fuel + 1) o ctx = some "string" ∧
      mapper.rust.map_type (fuel + 1) o ctx = some "String") ∧
    (o.instance_type = none →
      mapper.go.map_type (fuel + 1) o ctx = some "interface{}" ∧
      mapper.rust.map_type (fuel + 1) o ctx = some "serde_json::Value") := by
  have href : map_reference o ctx = none := by
    unfold map_reference
    rw [h1]
  cases ss with
  | nil => exact absurd rfl h4
  | cons s0 rest =>
    refine ⟨?_, ?_, ?_, ?_⟩
    · simp only [mapper.ts.map_type, href, h2, h3]
      rw [filterMap_as_str]
      simp [List.isEmpty]
    · simp only [mapper.python.map_type, href, h2, h3]
      rw [filterMap_as_str]
      simp [List.isEmpty]
    · intro hinst
      constructor
      · simp [mapper.go.map_type, href, h2, map_primitive, hinst]
      · simp [mapper.rust.map_type, href, h2, map_primitive, hinst]
    · intro hinst
      constructor
      · simp [mapper.go.map_type, href, h2, map_primitive, hinst]
      · simp [mapper.rust.map_type, href, h2, map_primitive, hinst]

/-- Witness for C5 at the concrete enumerations `enum_ab` and
`enum_ab_str`. -/
theorem c5_enum_rendering_witness :
    enum_ab_str.reference = none ∧ enum_ab_str.subschemas = none ∧
    enum_ab_str.enum_values = some (["a", "b"].map JsonValue.str) ∧
    (["a", "b"] : List String) ≠ [] ∧
    mapper.ts.map_type 1 enum_ab_str ts_ctx = some "\"a\" | \"b\"" ∧
    mapper.python.map_type 1 enum_ab_str python_ctx = some "Literal[\"a\", \"b\"]" ∧
    enum_ab_str.instance_type = some (.Single .String) ∧
    mapper.go.map_type 1 enum_ab_str go_ctx = some "string" ∧
    enum_ab.instance_type = none ∧
    mapper.go.map_type 1 enum_ab go_ctx = some "interface{}" :=
  ⟨rfl, rfl, rfl, by decide,
   (c5_enum_rendering 0 ts_ctx enum_ab_str ["a", "b"] rfl rfl rfl (by decide)).1,
   (c5_enum_rendering 0 python_ctx enum_ab_str ["a", "b"] rfl rfl rfl (by decide)).2.1,
   rfl,
   ((c5_enum_rendering 0 go_ctx enum_ab_str ["a", "b"] rfl rfl rfl (by decide)).2.2.1 rfl).1,
   rfl,
   ((c5_enum_rendering 0 go_ctx enum_ab ["a", "b"] rfl rfl rfl (by decide)).2.2.2 rfl).1⟩

/-- A reference to a schema name absent from every catalog used below. -/
def ref_missing : SchemaObject :=
  .mk none none none none none (some "#/components/schemas/Missing")

/-- Claim C10: a name absent from the naming context's table falls back to
`sanitize_identifier` rather than failing, so `map_type` on a dangling
reference still renders a type expression in every language, while
`collect_fields` on the same node fails with the unknown-reference
error. -/
theorem c10_dangling_reference (fuel : Nat) (ctx : LanguageContext)
    (comps : List (String × Schema)) (o : SchemaObject) (r name : String)
    (href : o.reference = some r)
    (hname : ref_to_name r = Except.ok name)
    (hctx : ctx.type_names.find? (fun p => p.1 == name) = none)
    (hcomps : lookup_schema comps name = none) :
    ctx.type_name name = sanitize_identifier name ∧
    mapper.ts.map_type (fuel + 1) o ctx = some (sanitize_identifier name) ∧
    mapper.python.map_type (fuel + 1) o ctx = some (sanitize_identifier name) ∧
    mapper.go.map_type (fuel + 1) o ctx = some (sanitize_identifier name) ∧
    mapper.rust.map_type (fuel + 1) o ctx = some (sanitize_identifier name) ∧
    collect_fields (fuel + 1) o comps =
      some (.error ("missing referenced schema " ++ name)) := by
  have htn : ctx.type_name name = sanitize_identifier name := by
    unfold LanguageContext.type_name
    rw [hctx]
  have hmr : map_reference o ctx = some (sanitize_identifier name) := by
    unfold map_reference
    rw [href]
    simp only [hname, htn]
  refine ⟨htn, ?_, ?_, ?_, ?_, ?_⟩
  · simp [mapper.ts.map_type, hmr]
  · simp [mapper.python.map_type, hmr]
  · simp [mapper.go.map_type, hmr]
  · simp [mapper.rust.map_type, hmr]
  · simp [collect_fields, href, hname, hcomps]

/-- Witness for C10 at the concrete dangling reference `ref_missing`
against the empty catalog. -/
theorem c10_dangling_reference_witness :
    ref_missing.reference = some "#/components/schemas/Missing" ∧
    ref_to_name "#/components/schemas/Missing" = Except.ok "Missing" ∧
    ts_ctx.type_names.find? (fun p => p.1 == "Missing") = none ∧
    lookup_schema [] "Missing" = none ∧
    mapper.ts.map_type 1 ref_missing ts_ctx = some (sanitize_identifier "Missing") ∧
    collect_fields 1 ref_missing [] =
      some (.error ("missing referenced schema " ++ "Missing")) :=
  ⟨rfl, rfl, rfl, rfl,
   (c10_dangling_reference 0 ts_ctx [] ref_missing "#/components/schemas/Missing"
      "Missing" rfl rfl rfl rfl).2.1,
   (c10_dangling_reference 0 ts_ctx [] ref_missing "#/components/schemas/Missing"
      "Missing" rfl rfl rfl rfl).2.2.2.2.2⟩

/-! ## Termination of field resolution on acyclic specifications -/

/-- The name a reference resolves to (total form of `ref_to_name`, which
never fails). -/
def ref_name (r : String) : String :=
  String.mk ((split_parts r.data).getLast?.getD [])

/-- `ref_to_name` always succeeds with `ref_name`. -/
theorem ref_to_name_eq_ref_name (r : String) : ref_to_name r = Except.ok (ref_name r) := by
  unfold ref_to_name ref_name
  cases h : (split_parts r.data).getLast? with
  | none =>
    cases hs : split_parts r.data with
    | nil => exact absurd hs (split_parts_ne_nil _)
    | cons p ps =>
      rw [hs] at h
      simp [List.getLast?_eq_none_iff] at h
  | some part => rfl

mutual

/-- The component names a schema's resolution spine can reach directly:
the reference target when a reference is present (it takes precedence),
else the spines of the `allOf` members.  A boolean schema normalizes to
the empty default object, which has no spine references. -/
def spine_refs_schema : Schema → List String
  | .bool _ => []
  | .obj o => spine_refs_obj o

/-- Spine references of a schema object. -/
def spine_refs_obj : SchemaObject → List String
  | .mk _ _ _ _ _ (some r) => [ref_name r]
  | .mk _ _ (some (.mk (some subs) _ _)) _ _ none => spine_refs_list subs
  | .mk _ _ (some (.mk none _ _)) _ _ none => []
  | .mk _ _ none _ _ none => []

/-- Spine references of a list of composed members. -/
def spine_refs_list : List Schema → List String
  | [] => []
  | s :: rest => spine_refs_schema s ++ spine_refs_list rest

end

/-- Normalization does not change the spine references. -/
theorem spine_refs_normalize (s : Schema) :
    spine_refs_obj (normalize_schema s) = spine_refs_schema s := by
  cases s with
  | bool b => simp [normalize_schema, SchemaObject.default, spine_refs_obj, spine_refs_schema]
  | obj o => simp [normalize_schema, spine_refs_schema]

mutual

/-- Structural weight of a schema along the resolution spine (the parts
`collect_fields` can recurse into without following a reference). -/
def size_schema : Schema → Nat
  | .bool _ => 1
  | .obj o => size_obj o + 1

/-- Spine weight of a schema object. -/
def size_obj : SchemaObject → Nat
  | .mk _ _ (some sv) _ _ _ => size_sub sv + 1
  | .mk _ _ none _ _ _ => 1

/-- Spine weight of a subschema block. -/
def size_sub : SubschemaValidation → Nat
  | .mk (some subs) _ _ => size_list subs + 1
  | .mk none _ _ => 1

/-- Spine weight of a member list. -/
def size_list : List Schema → Nat
  | [] => 1
  | s :: rest => size_schema s + size_list rest + 1

end

/-- Every spine weight is positive. -/
theorem size_obj_pos (o : SchemaObject) : 1 ≤ size_obj o := by
  cases o with
  | mk it ev ss ar ob rf =>
    cases ss <;> simp [size_obj]

/-- Normalization does not increase the spine weight. -/
theorem size_obj_normalize (s : Schema) : size_obj (normalize_schema s) ≤ size_schema s := by
  cases s with
  | bool b => simp [normalize_schema, SchemaObject.default, size_obj, size_schema]
  | obj o => simp [normalize_schema, size_schema]

/-- A member weighs no more than its list. -/
theorem size_schema_le_of_mem {x : Schema} {subs : List Schema} (h : x ∈ subs) :
    size_schema x ≤ size_list subs := by
  induction subs with
  | nil => simp at h
  | cons y rest ih =>
    rcases List.mem_cons.mp h with h1 | h1
    · rw [h1, size_list]
      omega
    · have := ih h1
      rw [size_list]
      omega

/-- The fuel a rank bound `R` reserves for the catalog: the weight of every
component whose rank is below `R`. -/
def sum_weight (rk : String → Nat) (comps : List (String × Schema)) (R : Nat) : Nat :=
  ((comps.filter (fun p => decide (rk p.1 < R))).map
    (fun p => size_obj (normalize_schema p.2) + 1)).sum

theorem sum_weight_cons (rk : String → Nat) (p : String × Schema)
    (rest : List (String × Schema)) (R : Nat) :
    sum_weight rk (p :: rest) R =
      (if rk p.1 < R then size_obj (normalize_schema p.2) + 1 else 0) +
        sum_weight rk rest R := by
  unfold sum_weight
  by_cases h : rk p.1 < R <;> simp [List.filter_cons, h]

theorem sum_weight_mono (rk : String → Nat) (comps : List (String × Schema))
    {R1 R2 : Nat} (h : R1 ≤ R2) :
    sum_weight rk comps R1 ≤ sum_weight rk comps R2 := by
  induction comps with
  | nil => simp [sum_weight]
  | cons p rest ih =>
    rw [sum_weight_cons, sum_weight_cons]
    by_cases h1 : rk p.1 < R1
    · have h2 : rk p.1 < R2 := lt_of_lt_of_le h1 h
      simp only [h1, h2, if_true]
      omega
    · by_cases h2 : rk p.1 < R2 <;> simp only [h1, h2, if_true, if_false] <;> omega

/-- A component found by lookup below the rank bound contributes its whole
weight: the weight reserved below its own rank, plus its own size, fits in
the weight reserved below `R`. -/
theorem sum_weight_lookup (rk : String → Nat) (comps : List (String × Schema))
    (R : Nat) (m : String) (sch : Schema)
    (hfind : lookup_schema comps m = some sch) (hR : rk m < R) :
    size_obj (normalize_schema sch) + 1 + sum_weight rk comps (rk m) ≤
      sum_weight rk comps R := by
  induction comps with
  | nil => simp [lookup_schema] at hfind
  | cons p rest ih =>
    rw [sum_weight_cons, sum_weight_cons]
    unfold lookup_schema at hfind
    cases hp : (p.1 == m) with
    | true =>
      simp only [List.find?_cons, hp] at hfind
      have hpm : p.1 = m := eq_of_beq hp
      have hsch : p.2 = sch := by simpa using hfind
      have hirr : ¬ (rk m < rk m) := lt_irrefl _
      rw [hpm, hsch, if_pos hR, if_neg hirr]
      have hmono := sum_weight_mono rk rest (le_of_lt hR)
      omega
    | false =>
      simp only [List.find?_cons, hp] at hfind
      have hfind2 : lookup_schema rest m = some sch := hfind
      have hrec := ih hfind2
      by_cases h1 : rk p.1 < rk m
      · have h2 : rk p.1 < R := lt_trans h1 hR
        rw [if_pos h1, if_pos h2]
        omega
      · by_cases h2 : rk p.1 < R
        · rw [if_neg h1, if_pos h2]
          omega
        · rw [if_neg h1, if_neg h2]
          omega

/-- The empty default schema resolves immediately to no fields. -/
theorem collect_fields_default (fuel : Nat) (comps : List (String × Schema)) :
    collect_fields (fuel + 1) SchemaObject.default comps = some (.ok []) := by
  simp [collect_fields, SchemaObject.default, SchemaObject.reference,
    SchemaObject.subschemas, object_fields, SchemaObject.object]

/-- Every schema node has positive spine weight. -/
theorem size_schema_pos (s : Schema) : 1 ≤ size_schema s := by
  cases s <;> simp [size_schema]

/-- A member's spine references are among its list's spine references. -/
theorem mem_spine_refs_list {m : String} {x : Schema} {subs : List Schema}
    (hx : x ∈ subs) (hm : m ∈ spine_refs_schema x) : m ∈ spine_refs_list subs := by
  induction subs with
  | nil => simp at hx
  | cons y rest ih =>
    rcases List.mem_cons.mp hx with h1 | h1
    · rw [spine_refs_list, List.mem_append]
      exact Or.inl (h1 ▸ hm)
    · rw [spine_refs_list, List.mem_append]
      exact Or.inr (ih h1)

mutual

/-- Ranked acyclicity gives `collect_fields` enough fuel: if every
component's spine references point to strictly lower-ranked components,
then a schema whose spine references rank below `R` resolves within
`size_obj` of itself plus the weight reserved below `R`. -/
theorem collect_fields_total (comps : List (String × Schema)) (rk : String → Nat)
    (hrank : ∀ p ∈ comps, ∀ m ∈ spine_refs_schema p.2, rk m < rk p.1)
    (R : Nat) (o : SchemaObject) (fuel : Nat)
    (hspine : ∀ m ∈ spine_refs_obj o, rk m < R)
    (hfuel : size_obj o + sum_weight rk comps R ≤ fuel) :
    ∃ result, collect_fields fuel o comps = some result := by
  have ho1 : 1 ≤ size_obj o := size_obj_pos o
  obtain ⟨fuel', rfl⟩ : ∃ f, fuel = f + 1 := ⟨fuel - 1, by omega⟩
  cases o with
  | mk it ev ss ar ob rf =>
    cases rf with
    | some r =>
      have heq1 : spine_refs_obj (SchemaObject.mk it ev ss ar ob (some r)) = [ref_name r] := by
        rw [spine_refs_obj]
      have hm : rk (ref_name r) < R := hspine _ (by rw [heq1]; simp)
      cases hlook : lookup_schema comps (ref_name r) with
      | none =>
        refine ⟨Except.error ("missing referenced schema " ++ ref_name r), ?_⟩
        simp [collect_fields, SchemaObject.reference, ref_to_name_eq_ref_name, hlook]
      | some sch =>
        have hpair : ∃ p, p ∈ comps ∧ p.1 = ref_name r ∧ p.2 = sch := by
          unfold lookup_schema at hlook
          cases hf : comps.find? (fun p => p.1 == ref_name r) with
          | none => rw [hf] at hlook; simp at hlook
          | some p =>
            rw [hf] at hlook
            have hmem := List.mem_of_find?_eq_some hf
            have hpred := List.find?_some hf
            have hp2 : p.2 = sch := by simpa using hlook
            exact ⟨p, hmem, eq_of_beq hpred, hp2⟩
        obtain ⟨p, hpmem, hp1, hp2⟩ := hpair
        have hsch_spine : ∀ m ∈ spine_refs_obj (normalize_schema sch),
            rk m < rk (ref_name r) := by
          rw [spine_refs_normalize]
          intro m hmm
          have := hrank p hpmem m (hp2 ▸ hmm)
          rw [hp1] at this
          exact this
        have hw := sum_weight_lookup rk comps R (ref_name r) sch hlook hm
        have hrec := collect_fields_total comps rk hrank (rk (ref_name r))
          (normalize_schema sch) fuel' hsch_spine (by omega)
        obtain ⟨result, hres⟩ := hrec
        refine ⟨result, ?_⟩
        simp only [collect_fields, SchemaObject.reference, ref_to_name_eq_ref_name, hlook]
        exact hres
    | none =>
      cases ss with
      | none =>
        refine ⟨Except.ok (object_fields (SchemaObject.mk it ev none ar ob none)), ?_⟩
        simp [collect_fields, SchemaObject.reference, SchemaObject.subschemas]
      | some sv =>
        cases sv with
        | mk ao anyo oneo =>
          cases ao with
          | none =>
            refine ⟨Except.ok (object_fields (SchemaObject.mk it ev
              (some (.mk none anyo oneo)) ar ob none)), ?_⟩
            simp [collect_fields, SchemaObject.reference, SchemaObject.subschemas,
              SubschemaValidation.all_of]
          | some subs =>
            have heq2 : spine_refs_obj (SchemaObject.mk it ev
                (some (.mk (some subs) anyo oneo)) ar ob none) = spine_refs_list subs := by
              rw [spine_refs_obj]
            have hsub_spine : ∀ x ∈ subs, ∀ m ∈ spine_refs_schema x, rk m < R := by
              intro x hx m hmm
              apply hspine
              rw [heq2]
              exact mem_spine_refs_list hx hmm
            have hsize : size_obj (SchemaObject.mk it ev
                (some (.mk (some subs) anyo oneo)) ar ob none) = size_list subs + 2 := by
              simp [size_obj, size_sub]
            have hrec := traverse_fields_total comps rk hrank R subs fuel' hsub_spine
              (by rw [hsize] at hfuel; omega)
            obtain ⟨result, hres⟩ := hrec
            refine ⟨result, ?_⟩
            simp only [collect_fields, SchemaObject.reference, SchemaObject.subschemas,
              SubschemaValidation.all_of]
            exact hres
termination_by (R, size_obj o, 0)

/-- List version of `collect_fields_total` for the `allOf` members. -/
theorem traverse_fields_total (comps : List (String × Schema)) (rk : String → Nat)
    (hrank : ∀ p ∈ comps, ∀ m ∈ spine_refs_schema p.2, rk m < rk p.1)
    (R : Nat) (subs : List Schema) (fuel : Nat)
    (hspine : ∀ x ∈ subs, ∀ m ∈ spine_refs_schema x, rk m < R)
    (hfuel : size_list subs + sum_weight rk comps R ≤ fuel) :
    ∃ result, traverse_fields
      (fun sub => collect_fields fuel (normalize_schema sub) comps) subs = some result := by
  cases hsubs : subs with
  | nil => exact ⟨Except.ok [], rfl⟩
  | cons x rest =>
    rw [hsubs] at hspine hfuel
    have hx : ∃ rx, collect_fields fuel (normalize_schema x) comps = some rx := by
      cases x with
      | bool b =>
        obtain ⟨f', rfl⟩ : ∃ f, fuel = f + 1 := by
          refine ⟨fuel - 1, ?_⟩
          have h1 : 1 ≤ size_list (Schema.bool b :: rest) := by rw [size_list]; omega
          omega
        exact ⟨Except.ok [], collect_fields_default f' comps⟩
      | obj o' =>
        have h1 : size_schema (Schema.obj o') ≤ size_list (Schema.obj o' :: rest) := by
          rw [size_list]; omega
        rw [size_schema] at h1
        have hgoal : ∃ rx, collect_fields fuel o' comps = some rx := by
          apply collect_fields_total comps rk hrank R o' fuel
          · intro m hmm
            exact hspine (.obj o') (List.mem_cons_self _ _) m hmm
          · omega
        simpa [normalize_schema] using hgoal
    obtain ⟨rx, hrx⟩ := hx
    have hxpos : 1 ≤ size_schema x := size_schema_pos x
    have hrest := traverse_fields_total comps rk hrank R rest fuel
      (fun y hy => hspine y (List.mem_cons_of_mem _ hy))
      (by rw [size_list] at hfuel; omega)
    obtain ⟨rr, hrr⟩ := hrest
    cases rx with
    | error e => exact ⟨Except.error e, by simp [traverse_fields, hrx]⟩
    | ok fs =>
      cases rr with
      | error e => exact ⟨Except.error e, by simp [traverse_fields, hrx, hrr]⟩
      | ok more => exact ⟨Except.ok (fs ++ more), by simp [traverse_fields, hrx, hrr]⟩
termination_by (R, size_list subs, 1)
decreasing_by
  · subst hsubs
    apply Prod.Lex.right
    apply Prod.Lex.left
    rw [size_list, size_schema]
    omega
  · subst hsubs
    apply Prod.Lex.right
    apply Prod.Lex.left
    rw [size_list]
    omega

end

/-- Every element is bounded by the max-fold of its list. -/
theorem le_foldr_max (l : List Nat) (a : Nat) (h : a ∈ l) : a ≤ l.foldr max 0 := by
  induction l with
  | nil => simp at h
  | cons b rest ih =>
    rcases List.mem_cons.mp h with h1 | h1
    · rw [h1, List.foldr_cons]
      exact le_max_left _ _
    · exact le_trans (ih h1) (le_max_right _ _)

/-- If every entry's fields resolve at a given fuel, the whole catalog loop
resolves at that fuel. -/
theorem resolve_each_total (fuel : Nat) (comps : List (String × Schema)) :
    ∀ (l : List (String × Schema)),
      (∀ p ∈ l, ∃ r, collect_fields fuel (normalize_schema p.2) comps = some r) →
      ∃ result, resolve_each fuel comps l = some result := by
  intro l
  induction l with
  | nil => exact fun _ => ⟨.ok [], rfl⟩
  | cons p rest ih =>
    intro hall
    obtain ⟨r, hr⟩ := hall p (List.mem_cons_self _ _)
    obtain ⟨rr, hrr⟩ := ih (fun q hq => hall q (List.mem_cons_of_mem _ hq))
    obtain ⟨name, schema⟩ := p
    cases r with
    | error e => exact ⟨.error e, by simp [resolve_each, hr]⟩
    | ok fields =>
      cases rr with
      | error e => exact ⟨.error e, by simp [resolve_each, hr, hrr]⟩
      | ok tail =>
        exact ⟨.ok ((⟨name, normalize_schema schema, fields⟩ : ResolvedType) :: tail),
          by simp [resolve_each, hr, hrr]⟩

/-- Claim C9: when the graph of named-schema references and composition
members is acyclic — witnessed by a rank function under which every spine
reference of a component points to a strictly lower-ranked name — field
resolution terminates: `collect_fields` completes for every catalog entry
within some finite recursion depth, and so does `resolve_components`.  (No
cycle detection exists in the code; without the rank hypothesis no depth
need suffice.) -/
theorem c9_acyclic_termination (comps : List (String × Schema)) (rk : String → Nat)
    (spec : OpenRpc)
    (hrank : ∀ p ∈ comps, ∀ m ∈ spine_refs_schema p.2, rk m < rk p.1)
    (hspec : spec.components.bind Components.schemas = some comps) :
    (∀ p ∈ comps, ∃ fuel result,
      collect_fields fuel (normalize_schema p.2) comps = some result) ∧
    (∃ fuel result, resolve_components fuel spec = some result) := by
  set R := (comps.map (fun p => rk p.1)).foldr max 0 + 1 with hR
  set N := (comps.map (fun p => size_obj (normalize_schema p.2))).foldr max 0 +
    sum_weight rk comps R with hN
  have hone : ∀ p ∈ comps, ∃ result,
      collect_fields N (normalize_schema p.2) comps = some result := by
    intro p hp
    apply collect_fields_total comps rk hrank R (normalize_schema p.2) N
    · rw [spine_refs_normalize]
      intro m hm
      have h1 := hrank p hp m hm
      have h2 : rk p.1 ≤ (comps.map (fun p => rk p.1)).foldr max 0 :=
        le_foldr_max _ _ (List.mem_map_of_mem _ hp)
      omega
    · have h3 : size_obj (normalize_schema p.2) ≤
          (comps.map (fun p => size_obj (normalize_schema p.2))).foldr max 0 :=
        le_foldr_max _ _ (List.mem_map_of_mem _ hp)
      omega
  refine ⟨fun p hp => ⟨N, hone p hp⟩, ?_⟩
  obtain ⟨result, hres⟩ := resolve_each_total N comps comps hone
  refine ⟨N, result, ?_⟩
  unfold resolve_components
  rw [hspec]
  exact hres

/-- A schema that is a bare reference to the component `B`. -/
def ref_to_b : Schema :=
  .obj (.mk none none none none none (some "#/components/schemas/B"))

/-- A two-component catalog where `A` references `B` — an acyclic chain. -/
def comps_w : List (String × Schema) := [("A", ref_to_b), ("B", empty_schema_node)]

/-- A rank function witnessing the acyclicity of `comps_w`. -/
def rk_w : String → Nat := fun s => if s = "A" then 1 else 0

/-- A specification carrying `comps_w`. -/
def spec_w : OpenRpc :=
  { openrpc := "1.0.0", info := none, methods := [],
    components := some { schemas := some comps_w } }

/-- Witness for C9 at the concrete acyclic specification `spec_w`. -/
theorem c9_acyclic_termination_witness :
    (∀ p ∈ comps_w, ∀ m ∈ spine_refs_schema p.2, rk_w m < rk_w p.1) ∧
    spec_w.components.bind Components.schemas = some comps_w ∧
    (∃ fuel result, resolve_components fuel spec_w = some result) := by
  have hrank : ∀ p ∈ comps_w, ∀ m ∈ spine_refs_schema p.2, rk_w m < rk_w p.1 := by
    intro p hp
    rcases List.mem_cons.mp hp with h1 | h1
    · subst h1
      show ∀ m ∈ spine_refs_schema ref_to_b, rk_w m < rk_w "A"
      unfold ref_to_b
      rw [spine_refs_schema, spine_refs_obj]
      intro m hm
      rw [List.mem_singleton.mp hm]
      decide
    · rcases List.mem_singleton.mp h1 with h2
      subst h2
      show ∀ m ∈ spine_refs_schema empty_schema_node, rk_w m < rk_w "B"
      unfold empty_schema_node
      rw [spine_refs_schema, spine_refs_obj]
      intro m hm
      simp at hm
  exact ⟨hrank, rfl, (c9_acyclic_termination comps_w rk_w spec_w hrank rfl).2⟩
